import Mathlib

/-!
Verification of the core of a Brainfuck optimization and execution system:
raw program parsing, the memory tape, the raw reference engine, the IR with
its peephole optimizer, and the stepwise IR engine. All definitions are
shallow embeddings of the corresponding Rust source functions.
-/

set_option maxRecDepth 10000

namespace Bf

/-! ## Raw instructions and program construction (src/raw.rs) -/

/-- The eight raw Brainfuck opcodes, `Instruction` in src/raw.rs. -/
inductive Instruction where
  | shiftRight
  | shiftLeft
  | add
  | sub
  | output
  | input
  | openLoop
  | closeLoop
deriving DecidableEq, Repr

/-- `Instruction::try_from(char)` composed through the byte conversion:
the partial map from characters to opcodes; non-opcode characters map to
none and are filtered out by program construction. -/
def instrOfChar (c : Char) : Option Instruction :=
  match c with
  | '>' => some .shiftRight
  | '<' => some .shiftLeft
  | '+' => some .add
  | '-' => some .sub
  | '.' => some .output
  | ',' => some .input
  | '[' => some .openLoop
  | ']' => some .closeLoop
  | _ => none

/-- A raw program is the validated sequence of opcodes (`Program.code`). -/
abbrev RawProgram := List Instruction

/-- Parse error, `UnmatchedParentheses` in src/raw.rs. -/
inductive ParseErr where
  | unmatchedParentheses
deriving DecidableEq, Repr

/-- The left-to-right depth scan of `Program::from_instrs`: `par_count` is a
usize updated with `checked_sub`, so a close bracket at depth 0 fails. -/
def parCount : List Instruction → Nat → Option Nat
  | [], n => some n
  | i :: rest, n =>
    match i with
    | .openLoop => parCount rest (n + 1)
    | .closeLoop =>
      match n with
      | 0 => none
      | m + 1 => parCount rest m
    | _ => parCount rest n

/-- `Program::from_instrs`: accept the instruction list iff the depth scan
never underflows and ends at zero. -/
def fromInstrs (code : List Instruction) : Except ParseErr RawProgram :=
  match parCount code 0 with
  | none => .error .unmatchedParentheses
  | some n => if n > 0 then .error .unmatchedParentheses else .ok code

instance {ε α : Type} [DecidableEq ε] [DecidableEq α] : DecidableEq (Except ε α) :=
  fun a b =>
    match a, b with
    | .ok x, .ok y =>
      if h : x = y then isTrue (by rw [h]) else isFalse (fun he => by cases he; exact h rfl)
    | .error x, .error y =>
      if h : x = y then isTrue (by rw [h]) else isFalse (fun he => by cases he; exact h rfl)
    | .ok _, .error _ => isFalse (fun he => Except.noConfusion he)
    | .error _, .ok _ => isFalse (fun he => Except.noConfusion he)

/-- `Program::from_chars`: filter out non-opcode characters, then validate. -/
def fromChars (code : List Char) : Except ParseErr RawProgram :=
  fromInstrs (code.filterMap instrOfChar)

/-- Number of open brackets in a list of opcodes. -/
def opens (l : List Instruction) : Nat := l.count .openLoop

/-- Number of close brackets in a list of opcodes. -/
def closes (l : List Instruction) : Nat := l.count .closeLoop

/-- The bracket depth of a list of opcodes: opens minus closes. -/
def depth (l : List Instruction) : Int := (opens l : Int) - closes l

/-- The spec-side bad-bracket condition: the bracket depth of some prefix
is negative (the depth counter went negative during the left-to-right
scan), or the depth of the whole list is non-zero at the end. -/
def badBrackets (l : List Instruction) : Prop :=
  (∃ k, k ≤ l.length ∧ depth (l.take k) < 0) ∨ depth l ≠ 0

instance (l : List Instruction) : Decidable (badBrackets l) := by
  unfold badBrackets
  have : (∃ k, k ≤ l.length ∧ depth (l.take k) < 0) ↔
      (∃ k ≤ l.length, depth (l.take k) < 0) := by
    simp
  rw [this]
  exact instDecidableOr

/-- Balancedness of a raw program: exactly the programs accepted by
`from_instrs`. -/
def Balanced (l : List Instruction) : Prop := fromInstrs l = .ok l

instance (l : List Instruction) : Decidable (Balanced l) := by
  unfold Balanced
  exact inferInstance

/-! ## Memory tape (src/engine/mem.rs) -/

/-- The sparse auto-extending byte tape backed by a byte vector; unwritten
cells read as zero. Cell values are bytes kept as naturals. -/
structure Memory where
  mem : List Nat
deriving DecidableEq, Repr

namespace Memory

/-- Fresh all-zero memory, `Memory::new`. -/
def new : Memory := ⟨[]⟩

/-- `Memory::get`: read a cell, 0 beyond the backing buffer. -/
def get (m : Memory) (pos : Nat) : Nat := m.mem.getD pos 0

/-- The write performed through `Memory::get_mut`: extend the buffer with
zeros up to `pos+1` if needed, then store the value. -/
def getMutSet (m : Memory) (pos : Nat) (v : Nat) : Memory :=
  ⟨(m.mem ++ List.replicate (pos + 1 - m.mem.length) 0).set pos v⟩

/-- `Memory::set`: store in place when inside the buffer; extend only for a
non-zero value; writing 0 past the end is a no-op. -/
def set (m : Memory) (pos : Nat) (v : Nat) : Memory :=
  if pos < m.mem.length then ⟨m.mem.set pos v⟩
  else if v ≠ 0 then m.getMutSet pos v
  else m

/-- The body of the `PartialEq` implementation once the buffers are sorted
by length (`s1` the longer): split the longer at the shorter's length,
compare the common parts pointwise, and require the tail to be all zeros. -/
def memEqCore (s1 s2 : List Nat) : Bool :=
  ((s1.take s2.length).zip s2).all (fun q => q.1 == q.2) &&
    (s1.drop s2.length).all (· == 0)

/-- The `PartialEq` implementation for `Memory`: order the two buffers by
length, compare the common prefix pointwise and require the longer tail to
be all zeros. -/
def memEq (m1 m2 : Memory) : Bool :=
  if m2.mem.length ≤ m1.mem.length then memEqCore m1.mem m2.mem
  else memEqCore m2.mem m1.mem

end Memory

/-- Byte wrap-around: all cell arithmetic is modulo 256. -/
def wrap (n : Nat) : Nat := n % 256

/-! ## IR data model (src/ir/mod.rs)

A `Block` is a list of nodes; a node's `body` field is the block of a loop.
The Rust `Shift.amount` is a `NonZeroIsize` and `Add.amount` a `NonZeroU8`;
they are embedded as plain `Int`/`Nat`, the code only ever building the
non-zero values the types enforce. -/

/-- IR node, `Node` in src/ir/mod.rs (constructor order matches the Rust
declaration order, which the derived total order uses). -/
inductive Node where
  | noop
  | shift (amount : Int)
  | add (amount : Nat) (offset : Int)
  | output (offset : Int)
  | input (offset : Int)
  | loop (body : List Node) (offset : Int)

mutual
def Node.decEq : (a b : Node) → Decidable (a = b)
  | .noop, .noop => isTrue rfl
  | .shift x, .shift y =>
    if h : x = y then isTrue (by rw [h]) else isFalse (fun he => by cases he; exact h rfl)
  | .add x o, .add y p =>
    if h : x = y ∧ o = p then isTrue (by rw [h.1, h.2])
    else isFalse (fun he => by cases he; exact h ⟨rfl, rfl⟩)
  | .output o, .output p =>
    if h : o = p then isTrue (by rw [h]) else isFalse (fun he => by cases he; exact h rfl)
  | .input o, .input p =>
    if h : o = p then isTrue (by rw [h]) else isFalse (fun he => by cases he; exact h rfl)
  | .loop b1 o1, .loop b2 o2 =>
    match nodeListDecEq b1 b2 with
    | isTrue hb =>
      if h : o1 = o2 then isTrue (by rw [hb, h]) else isFalse (fun he => by cases he; exact h rfl)
    | isFalse hb => isFalse (fun he => by cases he; exact hb rfl)
  | .noop, .shift _ | .noop, .add _ _ | .noop, .output _ | .noop, .input _ | .noop, .loop _ _
  | .shift _, .noop | .shift _, .add _ _ | .shift _, .output _ | .shift _, .input _ | .shift _, .loop _ _
  | .add _ _, .noop | .add _ _, .shift _ | .add _ _, .output _ | .add _ _, .input _ | .add _ _, .loop _ _
  | .output _, .noop | .output _, .shift _ | .output _, .add _ _ | .output _, .input _ | .output _, .loop _ _
  | .input _, .noop | .input _, .shift _ | .input _, .add _ _ | .input _, .output _ | .input _, .loop _ _
  | .loop _ _, .noop | .loop _ _, .shift _ | .loop _ _, .add _ _ | .loop _ _, .output _ | .loop _ _, .input _ =>
    isFalse (fun he => Node.noConfusion he)

def nodeListDecEq : (a b : List Node) → Decidable (a = b)
  | [], [] => isTrue rfl
  | [], _ :: _ => isFalse (fun he => List.noConfusion he)
  | _ :: _, [] => isFalse (fun he => List.noConfusion he)
  | x :: xs, y :: ys =>
    match Node.decEq x y, nodeListDecEq xs ys with
    | isTrue h1, isTrue h2 => isTrue (by rw [h1, h2])
    | isFalse h1, _ => isFalse (fun he => by cases he; exact h1 rfl)
    | isTrue _, isFalse h2 => isFalse (fun he => by cases he; exact h2 rfl)
end

instance : DecidableEq Node := Node.decEq
instance : DecidableEq (List Node) := nodeListDecEq

mutual
/-- `Node::shifted`: add the amount to every offset recursively; `Shift`
nodes are offset-invariant. -/
def Node.shifted : Node → Int → Node
  | .noop, _ => .noop
  | .shift a, _ => .shift a
  | .add a o, k => .add a (o + k)
  | .output o, k => .output (o + k)
  | .input o, k => .input (o + k)
  | .loop body o, k => .loop (shiftedList body k) (o + k)

/-- `Node::shifted` mapped over a loop body. -/
def shiftedList : List Node → Int → List Node
  | [], _ => []
  | n :: rest, k => n.shifted k :: shiftedList rest k
end

mutual
/-- `Node::does_output`: the node is an `Output`, or a `Loop` whose body
transitively contains one. -/
def Node.doesOutput : Node → Bool
  | .output _ => true
  | .loop body _ => anyOutput body
  | .noop | .shift _ | .add _ _ | .input _ => false

def anyOutput : List Node → Bool
  | [] => false
  | n :: rest => n.doesOutput || anyOutput rest
end

/-- `Node::diverge`: straight-line nodes surely do not diverge; a loop may. -/
def Node.diverge : Node → Option Bool
  | .noop | .shift _ | .add _ _ | .output _ | .input _ => some false
  | .loop _ _ => none

/-- `Node::commute`: the commutation relation used by the sorting rewrite. -/
def Node.commute : Node → Node → Bool
  | .noop, _ => true
  | _, .noop => true
  | .shift _, .shift _ => true
  | .shift _, _ => false
  | _, .shift _ => false
  | .add _ o1, .add _ o2 => decide (o1 ≠ o2)
  | .add _ o1, .output o2 => decide (o1 ≠ o2)
  | .add _ o1, .input o2 => decide (o1 ≠ o2)
  | .output o2, .add _ o1 => decide (o1 ≠ o2)
  | .input o2, .add _ o1 => decide (o1 ≠ o2)
  | .output _, .output _ => false
  | .output _, .input _ => false
  | .input _, .output _ => false
  | .input _, .input _ => false
  | _, _ => false

/-- Rank of the node's variant in Rust declaration order, the primary key
of the derived `Ord` on `Node`. -/
def Node.rank : Node → Nat
  | .noop => 0
  | .shift _ => 1
  | .add _ _ => 2
  | .output _ => 3
  | .input _ => 4
  | .loop _ _ => 5

mutual
/-- The derived `Ord` on `Node`: variant tag first, then the fields in
declaration order (a loop compares its body lexicographically, then its
offset). -/
def nodeCmp : Node → Node → Ordering
  | .noop, .noop => .eq
  | .shift x, .shift y => compare x y
  | .add x o, .add y p => (compare x y).then (compare o p)
  | .output o, .output p => compare o p
  | .input o, .input p => compare o p
  | .loop b1 o1, .loop b2 o2 => (nodeListCmp b1 b2).then (compare o1 o2)
  | a, b => compare a.rank b.rank

/-- The derived `Ord` on `Vec<Node>`: lexicographic. -/
def nodeListCmp : List Node → List Node → Ordering
  | [], [] => .eq
  | [], _ :: _ => .lt
  | _ :: _, [] => .gt
  | x :: xs, y :: ys => (nodeCmp x y).then (nodeListCmp xs ys)
end

/-- The strict comparison `n1 > n2` used by the sorting rewrite. -/
def nodeGt (a b : Node) : Bool := nodeCmp a b == .gt

/-! ## The optimizer (src/ir/optimizations.rs)

The two-node rewrites are pure; the one-node `recurse` rewrite re-enters
`Block::optimize`, whose fixed-point loop has no syntactic bound, so the
whole cluster is embedded with a fuel parameter: `none` means the fuel ran
out, never a failure of the code itself. -/

/-- The `collate` two-node rewrite: coalesce adjacent shifts, adjacent adds
at one offset, and adjacent loops at one offset; `some` is Rust's `Right`
(changed), `none` leaves the window untouched. -/
def collate2 (a b : Node) : Option (List Node) :=
  match a, b with
  | .shift a1, .shift a2 => some (if a1 + a2 = 0 then [] else [.shift (a1 + a2)])
  | .add a1 o1, .add a2 o2 =>
    if o1 = o2 then some (if (a1 + a2) % 256 = 0 then [] else [.add ((a1 + a2) % 256) o1])
    else none
  | .loop b1 o1, .loop _ o2 => if o1 = o2 then some [.loop b1 o1] else none
  | _, _ => none

/-- The `retard_shifts` rewrite: move a shift past the following node,
rewriting that node's offsets. -/
def retard2 (a b : Node) : Option (List Node) :=
  match a with
  | .shift k => some [b.shifted k, .shift k]
  | _ => none

/-- The `sort_ops` rewrite: swap two commuting adjacent nodes that are out
of order. -/
def sort2 (a b : Node) : Option (List Node) :=
  if a.commute b && nodeGt a b then some [b, a] else none

/-- The `OPTIMIZATIONS_2` pipeline on one window: `collate`, then
`retard_shifts`, then `sort_ops`, the first rewrite that fires winning. -/
def opts2 (a b : Node) : Option (List Node) :=
  ((collate2 a b).orElse fun _ => retard2 a b).orElse fun _ => sort2 a b

/-- One chunked sweep of `optimize_n::<2>`: the list is cut into adjacent
disjoint pairs from the start, each pair going through `opts2`; a leftover
element is kept; the flag records whether any window changed. -/
def chunkPairs : List Node → List Node × Bool
  | a :: b :: rest =>
    let r := chunkPairs rest
    match opts2 a b with
    | some repl => (repl ++ r.1, true)
    | none => (a :: b :: r.1, r.2)
  | l => (l, false)

/-- `optimize_n::<2>`: the chunked sweep at start offset 0, then (on the
result) at start offset 1, with the early return when fewer than two nodes
remain. -/
def pass2 (ns : List Node) : List Node × Bool :=
  if ns.length < 2 then (ns, false) else
  let r1 := chunkPairs ns
  if r1.1.length < 2 then r1 else
  match r1 with
  | (a :: rest, c1) =>
    let r2 := chunkPairs rest
    (a :: r2.1, c1 || r2.2)
  | (l, c) => (l, c)

mutual
/-- `Block::optimize`: repeat the full pass until one reports no change;
the returned flag says whether more than one pass ran (i.e. anything
changed). `none` = fuel exhausted (every call in this cluster consumes one
unit of fuel; the fuel never influences a returned `some`). -/
def blockOpt : Nat → List Node → Option (List Node × Bool)
  | 0, _ => none
  | f + 1, ns => do
    let (ns1, c) ← passOnce f ns
    if c then do
      let ns2 ← optFix f ns1
      some (ns2, true)
    else some (ns1, false)

/-- The tail of `Block::optimize`'s loop once a change was seen: keep
passing until a pass reports no change. -/
def optFix : Nat → List Node → Option (List Node)
  | 0, _ => none
  | f + 1, ns => do
    let (ns1, c) ← passOnce f ns
    if c then optFix f ns1 else some ns1

/-- `optimizations::optimize`: the one-node pass followed by the two-node
pass, the change flags ORed. -/
def passOnce : Nat → List Node → Option (List Node × Bool)
  | 0, _ => none
  | f + 1, ns => do
    let (ns1, c1) ← pass1 f ns
    let r2 := pass2 ns1
    some (r2.1, c1 || r2.2)

/-- `optimize_n::<1>`: every node goes through the one-node pipeline. -/
def pass1 : Nat → List Node → Option (List Node × Bool)
  | _, [] => some ([], false)
  | 0, _ :: _ => none
  | f + 1, n :: rest => do
    let (h, c1) ← opt1 f n
    let (t, c2) ← pass1 f rest
    some (h ++ t, c1 || c2)

/-- The `OPTIMIZATIONS_1` pipeline on one node: `recurse` (optimize a loop
body in place) then `remove_noops`. -/
def opt1 : Nat → Node → Option (List Node × Bool)
  | 0, .loop _ _ => none
  | f + 1, .loop body o => do
    let (b', c) ← blockOpt f body
    if c then some ([.loop b' o], true) else some ([.loop body o], false)
  | _, .noop => some ([], true)
  | _, n => some ([n], false)
end

/-! ## Lowering (Program::from_raw in src/ir/mod.rs) -/

/-- One step of the lowering stack machine; the stack's head is the
innermost open block, nodes are appended at its end. `none` models the
`unwrap` panics on stack underflow (impossible on balanced input). -/
def lowerInstr (stack : List (List Node)) (i : Instruction) : Option (List (List Node)) :=
  match i, stack with
  | _, [] => none
  | .openLoop, st => some ([] :: st)
  | .closeLoop, body :: rest =>
    match rest with
    | [] => none
    | sup :: r => some ((sup ++ [.loop body 0]) :: r)
  | .shiftRight, cur :: rest => some ((cur ++ [.shift 1]) :: rest)
  | .shiftLeft, cur :: rest => some ((cur ++ [.shift (-1)]) :: rest)
  | .add, cur :: rest => some ((cur ++ [.add 1 0]) :: rest)
  | .sub, cur :: rest => some ((cur ++ [.add 255 0]) :: rest)
  | .output, cur :: rest => some ((cur ++ [.output 0]) :: rest)
  | .input, cur :: rest => some ((cur ++ [.input 0]) :: rest)

/-- Run the lowering stack machine over the whole program. -/
def lowerFold : List Instruction → List (List Node) → Option (List (List Node))
  | [], st => some st
  | i :: rest, st => do lowerFold rest (← lowerInstr st i)

/-- The pure lowering part of `Program::from_raw`: fold the stack machine
from one empty open block; exactly one block must remain. -/
def lower (prog : RawProgram) : Option (List Node) :=
  match lowerFold prog [[]] with
  | some [body] => some body
  | _ => none

/-- A node the top-level trim may drop: it surely does not diverge and does
not output (`diverge() == Some(false) && !does_output()`). -/
def trimmable (n : Node) : Bool := (n.diverge == some false) && !n.doesOutput

/-- The leading-loop scan of `from_raw`: index of the first non-loop node;
`none` models the out-of-bounds panic when every node is a loop (or the
block is empty). -/
def leadLoops : List Node → Option Nat
  | [] => none
  | .loop _ _ :: rest => (leadLoops rest).map (· + 1)
  | _ :: _ => some 0

/-- The trailing-trim scan over the reversed block: index (in the original
block) of the last non-trimmable node; `none` models the usize underflow /
out-of-bounds panic when every node is trimmable or the block is empty. -/
def lastKeepRev : List Node → Option Nat
  | [] => none
  | n :: rest => if trimmable n then lastKeepRev rest else some rest.length

/-- One trim step of `from_raw`: drop leading loops and the trailing
no-effect suffix, keeping indices `s..=e`; `none` models a panic. -/
def trim (body : List Node) : Option (List Node) := do
  let s ← leadLoops body
  let e ← lastKeepRev body.reverse
  if s > e + 1 then none else some ((body.take (e + 1)).drop s)

/-- Result of `Program::from_raw`: the lowered block, a panic, or fuel
exhaustion of the embedding. -/
inductive LowerRes where
  | ok (body : List Node)
  | panic
  | fuelOut
deriving DecidableEq

/-- The `while body.optimize()` loop of `from_raw`: optimize, and while
something changed, trim and go again. -/
def fromRawLoop : Nat → List Node → LowerRes
  | 0, _ => .fuelOut
  | f + 1, body =>
    match blockOpt f body with
    | none => .fuelOut
    | some (b1, changed) =>
      if changed then
        match trim b1 with
        | none => .panic
        | some b2 => fromRawLoop f b2
      else .ok b1

/-- `Program::from_raw`: lower the raw program, then run the
optimize-and-trim loop to its fixed point. -/
def fromRaw (fuel : Nat) (prog : RawProgram) : LowerRes :=
  match lower prog with
  | none => .panic
  | some body => fromRawLoop fuel body

/-! ## Engine common types (src/engine/mod.rs) -/

/-- `StopState`: why a step suspended. -/
inductive StopState where
  | halted
  | needInput
  | hasOutput (b : Nat)
deriving DecidableEq, Repr

/-- `State`: result of a successful step. -/
inductive EngState where
  | running
  | stopped (s : StopState)
deriving DecidableEq, Repr

/-- `RTError`: the only runtime error, the pointer accessing a negative
cell. -/
inductive RTError where
  | memNegativeOut
deriving DecidableEq, Repr

/-- Result of one embedded step: a successful step with the new engine, a
runtime error, or a Rust panic (unchecked indexing / usize underflow). -/
inductive StepRes (α : Type) where
  | ok (st : EngState) (e : α)
  | err (er : RTError)
  | panic
deriving DecidableEq

/-! ## Raw engine (src/engine/raw.rs) -/

/-- The forward bracket scan of the `OpenLoop` arm, walking the opcodes
after the current `[`: count opens/closes until the counter returns to
zero; `none` models the out-of-bounds panic of `program[ip]` when the scan
runs off the end. Returns the position inside the walked suffix. -/
def scanFAux : List Instruction → Nat → Option Nat
  | [], _ => none
  | i :: rest, count =>
    let c :=
      match i with
      | .openLoop => count + 1
      | .closeLoop => count - 1
      | _ => count
    if c = 0 then some 0 else (scanFAux rest c).map (· + 1)

/-- The forward scan from the `[` at `ip`: absolute index of the matching
`]`. -/
def scanF (prog : List Instruction) (ip : Nat) : Option Nat :=
  (scanFAux (prog.drop (ip + 1)) 1).map (ip + 1 + ·)

/-- The backward bracket scan of the `CloseLoop` arm, walking the reversed
prefix before the current `]`; `none` models the usize underflow panic of
`ip -= 1` at position 0. Returns the distance walked. -/
def scanBAux : List Instruction → Nat → Option Nat
  | [], _ => none
  | i :: rest, count =>
    let c :=
      match i with
      | .openLoop => count - 1
      | .closeLoop => count + 1
      | _ => count
    if c = 0 then some 0 else (scanBAux rest c).map (· + 1)

/-- The backward scan from the `]` at `ip`: absolute index of the matching
`[`. -/
def scanB (prog : List Instruction) (ip : Nat) : Option Nat :=
  (scanBAux (prog.take ip).reverse 1).map (fun d => ip - 1 - d)

/-- Swap the two bracket opcodes, fix everything else: walking a program
backwards counts brackets exactly like walking the flipped reverse
forwards. -/
def flipBr : Instruction → Instruction
  | .openLoop => .closeLoop
  | .closeLoop => .openLoop
  | i => i

/-- State of the raw engine: `(program, ip, tape, mp, pending input)`. -/
structure RawEngine where
  program : RawProgram
  ip : Nat
  mem : Memory
  mp : Int
  input : Option Nat
deriving DecidableEq

/-- `Engine::new` for the raw engine. -/
def RawEngine.new (prog : RawProgram) : RawEngine :=
  { program := prog, ip := 0, mem := .new, mp := 0, input := none }

/-- `Engine::step` of the raw engine (src/engine/raw.rs): one opcode, with
`MemNegativeOut` on any memory access at `mp < 0` and bracket scans for the
loop opcodes. -/
def rawStep (e : RawEngine) : StepRes RawEngine :=
  if e.ip = e.program.length then .ok (.stopped .halted) e
  else
    match e.program[e.ip]? with
    | none => .panic
    | some i =>
      match i with
      | .shiftRight => .ok .running { e with mp := e.mp + 1, ip := e.ip + 1 }
      | .shiftLeft => .ok .running { e with mp := e.mp - 1, ip := e.ip + 1 }
      | .add =>
        if e.mp < 0 then .err .memNegativeOut
        else
          .ok .running
            { e with
              mem := e.mem.getMutSet e.mp.toNat (wrap (e.mem.get e.mp.toNat + 1)),
              ip := e.ip + 1 }
      | .sub =>
        if e.mp < 0 then .err .memNegativeOut
        else
          .ok .running
            { e with
              mem := e.mem.getMutSet e.mp.toNat (wrap (e.mem.get e.mp.toNat + 255)),
              ip := e.ip + 1 }
      | .output =>
        if e.mp < 0 then .err .memNegativeOut
        else .ok (.stopped (.hasOutput (e.mem.get e.mp.toNat))) { e with ip := e.ip + 1 }
      | .input =>
        match e.input with
        | some b =>
          if e.mp < 0 then .err .memNegativeOut
          else
            .ok .running
              { e with mem := e.mem.getMutSet e.mp.toNat b, input := none, ip := e.ip + 1 }
        | none => .ok (.stopped .needInput) e
      | .openLoop =>
        if e.mp < 0 then .err .memNegativeOut
        else if e.mem.get e.mp.toNat = 0 then
          match scanF e.program e.ip with
          | none => .panic
          | some j => .ok .running { e with ip := j + 1 }
        else .ok .running { e with ip := e.ip + 1 }
      | .closeLoop =>
        if e.mp < 0 then .err .memNegativeOut
        else if e.mem.get e.mp.toNat ≠ 0 then
          match scanB e.program e.ip with
          | none => .panic
          | some j => .ok .running { e with ip := j + 1 }
        else .ok .running { e with ip := e.ip + 1 }

/-! ## IR engine (src/engine/ir.rs) -/

/-- State of the IR engine: the block stack (head is the top frame), tape,
pointer and pending input. -/
structure IrEngine where
  stack : List (List Node × Nat)
  mem : Memory
  mp : Int
  input : Option Nat
deriving DecidableEq

/-- `Engine::new` for the IR engine: one frame holding the program's top
block. -/
def IrEngine.new (body : List Node) : IrEngine :=
  { stack := [(body, 0)], mem := .new, mp := 0, input := none }

/-- The node the IR engine's next step will inspect: the current node of
the top stack frame. -/
def curNode (e : IrEngine) : Option Node :=
  match e.stack with
  | (blk, pos) :: _ => blk[pos]?
  | [] => none

/-- The frame-popping loop inside `advance`: while more than one frame
exists and the top frame is finished, pop it and put its block back into
the enclosing loop node; `none` models the `unreachable!` panic. The first
argument is the top frame, the second the frames below it. -/
def popFrames (top : List Node × Nat) : List (List Node × Nat) → Option (List (List Node × Nat))
  | [] => some [top]
  | (sup, spos) :: rest =>
    if top.2 = top.1.length then
      match sup[spos]? with
      | some (.loop _ o) => popFrames (sup.set spos (.loop top.1 o), spos) rest
      | _ => none
    else some (top :: (sup, spos) :: rest)

/-- `advance`: move past the current node of the top frame, then pop
finished frames. -/
def advance : List (List Node × Nat) → Option (List (List Node × Nat))
  | [] => none
  | (blk, pos) :: rest => popFrames (blk, pos + 1) rest

/-- `Engine::step` of the IR engine (src/engine/ir.rs). -/
def irStep (e : IrEngine) : StepRes IrEngine :=
  match e.stack with
  | [(blk, pos)] =>
    if pos = blk.length then .ok (.stopped .halted) e else irStepInner e blk pos []
  | (blk, pos) :: rest => irStepInner e blk pos rest
  | [] => .panic
where
  /-- The body of `step` once the halt check fell through: dispatch on the
  top frame's current node. -/
  irStepInner (e : IrEngine) (blk : List Node) (pos : Nat) (rest : List (List Node × Nat)) :
      StepRes IrEngine :=
    match blk[pos]? with
    | none => .panic
    | some n =>
      match n with
      | .shift a =>
        match advance ((blk, pos) :: rest) with
        | none => .panic
        | some st => .ok .running { e with stack := st, mp := e.mp + a }
      | .add a o =>
        if e.mp + o < 0 then .err .memNegativeOut
        else
          match advance ((blk, pos) :: rest) with
          | none => .panic
          | some st =>
            .ok .running
              { e with
                stack := st,
                mem := e.mem.set (e.mp + o).toNat (wrap (e.mem.get (e.mp + o).toNat + a)) }
      | .output o =>
        if e.mp + o < 0 then .err .memNegativeOut
        else
          match advance ((blk, pos) :: rest) with
          | none => .panic
          | some st =>
            .ok (.stopped (.hasOutput (e.mem.get (e.mp + o).toNat))) { e with stack := st }
      | .input o =>
        match e.input with
        | some b =>
          if e.mp + o < 0 then .err .memNegativeOut
          else
            match advance ((blk, pos) :: rest) with
            | none => .panic
            | some st =>
              .ok .running
                { e with stack := st, mem := e.mem.set (e.mp + o).toNat b, input := none }
        | none => .ok (.stopped .needInput) e
      | .loop body o =>
        if e.mp + o < 0 then .err .memNegativeOut
        else if e.mem.get (e.mp + o).toNat ≠ 0 then
          .ok .running { e with stack := (body, 0) :: (blk.set pos (.loop [] o), pos) :: rest }
        else
          match advance ((blk, pos) :: rest) with
          | none => .panic
          | some st => .ok .running { e with stack := st }
      | .noop =>
        match advance ((blk, pos) :: rest) with
        | none => .panic
        | some st => .ok .running { e with stack := st }

/-! ## Driving an engine (the host loop of §6 of the spec) -/

/-- Outcome of driving an engine: the collected output bytes together with
how the run ended. -/
inductive RunRes where
  | halted (outs : List Nat)
  | errored (er : RTError) (outs : List Nat)
  | blocked (outs : List Nat)
  | panicked (outs : List Nat)
  | fuelOut (outs : List Nat)
deriving DecidableEq, Repr

/-- The host loop over an abstract step function: step repeatedly, record
outputs, feed the next input byte on `NeedInput`, stop on halt or error. -/
def drive {α : Type} (step : α → StepRes α) (giveInput : α → Nat → α) :
    Nat → α → List Nat → List Nat → RunRes
  | 0, _, _, outs => .fuelOut outs.reverse
  | f + 1, e, ins, outs =>
    match step e with
    | .ok .running e' => drive step giveInput f e' ins outs
    | .ok (.stopped .halted) _ => .halted outs.reverse
    | .ok (.stopped (.hasOutput b)) e' => drive step giveInput f e' ins (b :: outs)
    | .ok (.stopped .needInput) e' =>
      match ins with
      | [] => .blocked outs.reverse
      | b :: ins' => drive step giveInput f (giveInput e' b) ins' outs
    | .err er => .errored er outs.reverse
    | .panic => .panicked outs.reverse

/-- Run the raw engine on a program with an input byte list. -/
def rawRun (fuel : Nat) (prog : RawProgram) (ins : List Nat) : RunRes :=
  drive rawStep (fun e b => { e with input := some b }) fuel (RawEngine.new prog) ins []

/-- Run the IR engine on an IR block with an input byte list. -/
def irRun (fuel : Nat) (body : List Node) (ins : List Nat) : RunRes :=
  drive irStep (fun e b => { e with input := some b }) fuel (IrEngine.new body) ins []

/-! ## Commutation soundness (claim C7)

A small big-step semantics for node sequences, used to state what swapping
two adjacent nodes preserves: the state is tape, pointer and a position in
an infinite input stream; the trace records I/O events in order. Fuel
bounds only the number of loop iterations. -/

/-- Execution state for the node semantics. -/
structure St where
  mem : Memory
  mp : Int
  inp : Nat
deriving DecidableEq, Repr

/-- An observable I/O event. -/
inductive Ev where
  | out (b : Nat)
  | inp (b : Nat)
deriving DecidableEq, Repr

/-- Result of executing nodes: success, runtime error or out of fuel, each
carrying the trace of events already emitted (an output delivered to the
host before a later error has been observed). -/
inductive Res where
  | ok (s : St) (tr : List Ev)
  | err (tr : List Ev)
  | timeout (tr : List Ev)
deriving DecidableEq, Repr

/-- Prepend an already-emitted trace to a result. -/
def Res.withTr (tr : List Ev) : Res → Res
  | .ok s tr2 => .ok s (tr ++ tr2)
  | .err tr2 => .err (tr ++ tr2)
  | .timeout tr2 => .timeout (tr ++ tr2)

mutual
/-- Execute one node: the IR engine's per-node semantics (same guards and
memory operations as `irStep`), with loops iterated recursively on fuel. -/
def runNode (I : Nat → Nat) : Nat → Node → St → Res
  | _, .noop, s => .ok s []
  | _, .shift a, s => .ok { s with mp := s.mp + a } []
  | _, .add a o, s =>
    if s.mp + o < 0 then .err []
    else
      .ok { s with
        mem := s.mem.set (s.mp + o).toNat (wrap (s.mem.get (s.mp + o).toNat + a)) } []
  | _, .output o, s =>
    if s.mp + o < 0 then .err []
    else .ok s [.out (s.mem.get (s.mp + o).toNat)]
  | _, .input o, s =>
    if s.mp + o < 0 then .err []
    else .ok { s with mem := s.mem.set (s.mp + o).toNat (I s.inp), inp := s.inp + 1 }
      [.inp (I s.inp)]
  | f, .loop body o, s =>
    if s.mp + o < 0 then .err []
    else if s.mem.get (s.mp + o).toNat = 0 then .ok s []
    else
      match f with
      | 0 => .timeout []
      | fp + 1 =>
        match runList I (fp + 1) body s with
        | .ok s2 tr => (runNode I fp (.loop body o) s2).withTr tr
        | other => other
termination_by f n _ => (f, sizeOf n)

/-- Execute a list of nodes in order, concatenating traces. -/
def runList (I : Nat → Nat) : Nat → List Node → St → Res
  | _, [], s => .ok s []
  | f, n :: rest, s =>
    match runNode I f n s with
    | .ok s2 tr => (runList I f rest s2).withTr tr
    | other => other
termination_by f l _ => (f, sizeOf l)
end

/-! ## Tape equality is the infinitely-zero-extended one (claim C8) -/

theorem all_zero_iff_getD (l : List Nat) : l.all (· == 0) = true ↔ ∀ i, l.getD i 0 = 0 := by
  induction l with
  | nil => simp
  | cons x xs ih =>
    simp only [List.all_cons, Bool.and_eq_true, beq_iff_eq, ih]
    constructor
    · rintro ⟨hx, hxs⟩ i
      cases i with
      | zero => simpa using hx
      | succ j => simpa using hxs j
    · intro h
      exact ⟨by simpa using h 0, fun i => by simpa using h (i + 1)⟩

theorem memEqCore_iff (s1 : List Nat) (s2 : List Nat) (h : s2.length ≤ s1.length) :
    Memory.memEqCore s1 s2 = true ↔ ∀ i, s1.getD i 0 = s2.getD i 0 := by
  induction s1 generalizing s2 with
  | nil =>
    have hs2 : s2 = [] := List.eq_nil_of_length_eq_zero (Nat.le_zero.mp h)
    subst hs2
    simp [Memory.memEqCore]
  | cons x xs ih =>
    cases s2 with
    | nil =>
      have hcore : Memory.memEqCore (x :: xs) [] = (x :: xs).all (· == 0) := by
        simp [Memory.memEqCore]
      rw [hcore, all_zero_iff_getD]
      simp
    | cons y ys =>
      have hcore : Memory.memEqCore (x :: xs) (y :: ys) = ((x == y) && Memory.memEqCore xs ys) := by
        simp only [Memory.memEqCore, List.length_cons, List.take_succ_cons, List.zip_cons_cons,
          List.all_cons, List.drop_succ_cons, Bool.and_assoc]
      rw [hcore]
      simp only [Bool.and_eq_true, beq_iff_eq,
        ih ys (by simpa using Nat.le_of_succ_le_succ h)]
      constructor
      · rintro ⟨hx, hxs⟩ i
        cases i with
        | zero => simpa using hx
        | succ j => simpa using hxs j
      · intro h
        exact ⟨by simpa using h 0, fun i => by simpa using h (i + 1)⟩

/-- C8. Memory tape equality is over the infinitely-zero-extended content:
the `PartialEq` implementation returns true exactly when the two tapes
agree at every index, with cells beyond each backing buffer read as 0. -/
theorem memEq_iff_pointwise (m1 m2 : Memory) :
    Memory.memEq m1 m2 = true ↔ ∀ i, m1.get i = m2.get i := by
  unfold Memory.memEq Memory.get
  split
  case isTrue h => exact memEqCore_iff _ _ h
  case isFalse h =>
    rw [memEqCore_iff _ _ (Nat.le_of_lt (Nat.lt_of_not_le h))]
    exact ⟨fun hp i => (hp i).symm, fun hp i => (hp i).symm⟩

/-! ## Offset rewriting composes (claim C6) -/

mutual
theorem Node.shifted_shifted : ∀ (n : Node) (a b : Int),
    (n.shifted a).shifted b = n.shifted (a + b)
  | .noop, _, _ => rfl
  | .shift _, _, _ => rfl
  | .add _ o, a, b => by simp [Node.shifted, add_assoc]
  | .output o, a, b => by simp [Node.shifted, add_assoc]
  | .input o, a, b => by simp [Node.shifted, add_assoc]
  | .loop body o, a, b => by
    simp [Node.shifted, shiftedList_shiftedList body a b, add_assoc]

theorem shiftedList_shiftedList : ∀ (l : List Node) (a b : Int),
    shiftedList (shiftedList l a) b = shiftedList l (a + b)
  | [], _, _ => rfl
  | n :: rest, a, b => by
    simp [shiftedList, Node.shifted_shifted n a b, shiftedList_shiftedList rest a b]
end

mutual
theorem Node.shifted_zero : ∀ (n : Node), n.shifted 0 = n
  | .noop => rfl
  | .shift _ => rfl
  | .add _ o => by simp [Node.shifted]
  | .output o => by simp [Node.shifted]
  | .input o => by simp [Node.shifted]
  | .loop body o => by simp [Node.shifted, shiftedList_zero body]

theorem shiftedList_zero : ∀ (l : List Node), shiftedList l 0 = l
  | [] => rfl
  | n :: rest => by simp [shiftedList, Node.shifted_zero n, shiftedList_zero rest]
end

/-- C6. Offset rewriting composes: for every IR node and all integers `a`,
`b`, shifting by `a` and then by `b` equals shifting by `a + b`, and
shifting by 0 is the identity. -/
theorem shifted_compose (n : Node) (a b : Int) :
    (n.shifted a).shifted b = n.shifted (a + b) ∧ n.shifted 0 = n :=
  ⟨Node.shifted_shifted n a b, Node.shifted_zero n⟩

/-! ## Program construction and bracket depth (claim C4) -/

theorem depth_nil : depth [] = 0 := by simp [depth, opens, closes]

theorem depth_cons (i : Instruction) (l : List Instruction) :
    depth (i :: l) = (match i with
      | .openLoop => 1
      | .closeLoop => -1
      | _ => 0) + depth l := by
  cases i <;> simp [depth, opens, closes, List.count_cons] <;> ring

theorem parCount_none_iff : ∀ (l : List Instruction) (n : Nat),
    (parCount l n = none ↔ ∃ k, k ≤ l.length ∧ (n : Int) + depth (l.take k) < 0) := by
  intro l
  induction l with
  | nil =>
    intro n
    simp only [parCount, List.length_nil]
    constructor
    · intro h; exact Option.noConfusion h
    · rintro ⟨k, hk, hlt⟩
      interval_cases k
      rw [List.take_nil, depth_nil] at hlt
      omega
  | cons i rest ih =>
    intro n
    have hsplit :
        (∃ k, k ≤ (i :: rest).length ∧ (n : Int) + depth ((i :: rest).take k) < 0) ↔
        ((n : Int) + depth [] < 0 ∨
          ∃ k, k ≤ rest.length ∧ (n : Int) + depth (i :: rest.take k) < 0) := by
      constructor
      · rintro ⟨k, hk, hlt⟩
        cases k with
        | zero => exact Or.inl (by simpa using hlt)
        | succ j =>
          exact Or.inr ⟨j, by simpa using hk, by simpa [List.take_succ_cons] using hlt⟩
      · rintro (h0 | ⟨k, hk, hlt⟩)
        · exact ⟨0, by simp, by simpa using h0⟩
        · exact ⟨k + 1, by simpa using hk, by simpa [List.take_succ_cons] using hlt⟩
    rw [hsplit]
    have hzero : ¬ ((n : Int) + depth [] < 0) := by rw [depth_nil]; omega
    simp only [hzero, false_or]
    cases i with
    | openLoop =>
      simp only [parCount]
      rw [ih (n + 1)]
      constructor
      · rintro ⟨k, hk, hlt⟩
        refine ⟨k, hk, ?_⟩
        rw [depth_cons]
        push_cast at hlt ⊢
        omega
      · rintro ⟨k, hk, hlt⟩
        refine ⟨k, hk, ?_⟩
        rw [depth_cons] at hlt
        push_cast at hlt ⊢
        omega
    | closeLoop =>
      cases n with
      | zero =>
        constructor
        · intro _
          refine ⟨0, by simp, ?_⟩
          simp [depth_cons, depth_nil]
        · intro _
          rfl
      | succ m =>
        simp only [parCount]
        rw [ih m]
        constructor
        · rintro ⟨k, hk, hlt⟩
          refine ⟨k, hk, ?_⟩
          rw [depth_cons]
          push_cast at hlt ⊢
          omega
        · rintro ⟨k, hk, hlt⟩
          refine ⟨k, hk, ?_⟩
          rw [depth_cons] at hlt
          push_cast at hlt ⊢
          omega
    | shiftRight | shiftLeft | add | sub | output | input =>
      simp only [parCount]
      rw [ih n]
      constructor
      · rintro ⟨k, hk, hlt⟩
        refine ⟨k, hk, ?_⟩
        rw [depth_cons]
        push_cast at hlt ⊢
        omega
      · rintro ⟨k, hk, hlt⟩
        refine ⟨k, hk, ?_⟩
        rw [depth_cons] at hlt
        push_cast at hlt ⊢
        omega

theorem parCount_some_eq : ∀ (l : List Instruction) (n m : Nat),
    parCount l n = some m → (m : Int) = n + depth l := by
  intro l
  induction l with
  | nil =>
    intro n m h
    simp only [parCount, Option.some.injEq] at h
    subst h
    rw [depth_nil]
    omega
  | cons i rest ih =>
    intro n m h
    cases i with
    | openLoop =>
      have := ih (n + 1) m h
      rw [depth_cons]
      push_cast at this ⊢
      omega
    | closeLoop =>
      cases n with
      | zero => exact Option.noConfusion h
      | succ p =>
        have := ih p m h
        rw [depth_cons]
        push_cast at this ⊢
        omega
    | shiftRight | shiftLeft | add | sub | output | input =>
      have := ih n m h
      rw [depth_cons]
      push_cast at this ⊢
      omega

/-- C4. Raw program construction ignores non-opcode characters, fails with
`UnmatchedParentheses` exactly when the bracket depth of the filtered
opcodes goes negative during the left-to-right scan or is non-zero at the
end, and otherwise returns exactly the filtered opcodes. -/
theorem fromChars_characterization (cs : List Char) :
    (fromChars cs = .error .unmatchedParentheses ↔ badBrackets (cs.filterMap instrOfChar)) ∧
      (∀ p, fromChars cs = .ok p → p = cs.filterMap instrOfChar) := by
  set l := cs.filterMap instrOfChar with hl
  unfold fromChars fromInstrs
  rw [← hl]
  constructor
  · cases hpar : parCount l 0 with
    | none =>
      simp only [true_iff]
      left
      have := (parCount_none_iff l 0).mp hpar
      simpa using this
    | some n =>
      have hn := parCount_some_eq l 0 n hpar
      cases Nat.eq_zero_or_pos n with
      | inl h0 =>
        subst h0
        simp only [gt_iff_lt, Nat.lt_irrefl, reduceIte]
        constructor
        · intro h; exact Except.noConfusion h
        · intro hbad
          exfalso
          rcases hbad with ⟨k, hk, hlt⟩ | hne
          · have : parCount l 0 = none :=
              (parCount_none_iff l 0).mpr ⟨k, hk, by simpa using hlt⟩
            rw [hpar] at this
            exact Option.noConfusion this
          · apply hne
            omega
      | inr hpos =>
        simp only [if_pos hpos]
        constructor
        · intro _
          right
          omega
        · intro _; trivial
  · intro p hp
    split at hp
    · exact Except.noConfusion hp
    · split at hp
      · exact Except.noConfusion hp
      · cases hp
        rfl

/-- Instantiation of C4: `[[]` has bad brackets (so parsing fails), and
parsing `+a` succeeds with exactly the filtered opcodes. -/
theorem fromChars_characterization_witness :
    badBrackets ("[[]".toList.filterMap instrOfChar) ∧
      [Instruction.add] = "+a".toList.filterMap instrOfChar :=
  ⟨(fromChars_characterization "[[]".toList).1.mp (by decide),
    (fromChars_characterization "+a".toList).2 [Instruction.add] (by decide)⟩

/-! ## NeedInput leaves the engine state unchanged (claim C10) -/

theorem rawStep_needInput_iff (e e' : RawEngine) :
    rawStep e = .ok (.stopped .needInput) e' ↔
      (e' = e ∧ e.program[e.ip]? = some .input ∧ e.input = none) := by
  constructor
  · intro hstep
    unfold rawStep at hstep
    repeat' (split at hstep)
    all_goals simp_all
  · rintro ⟨he, hcur, hinp⟩
    subst he
    have hlt : e'.ip < e'.program.length := by
      by_contra hge
      have hnone : e'.program[e'.ip]? = none := List.getElem?_eq_none (by omega)
      rw [hnone] at hcur
      exact Option.noConfusion hcur
    unfold rawStep
    rw [if_neg (by omega)]
    simp only [hcur, hinp]

theorem irStep_needInput_iff (e e' : IrEngine) :
    irStep e = .ok (.stopped .needInput) e' ↔
      (e' = e ∧ (∃ o, curNode e = some (.input o)) ∧ e.input = none) := by
  constructor
  · intro hstep
    unfold irStep at hstep
    split at hstep
    · -- singleton frame
      rename_i blk pos heq
      split at hstep
      · simp at hstep
      · unfold irStep.irStepInner at hstep
        repeat' (split at hstep)
        all_goals simp_all [curNode]
    · rename_i blk pos rest heq _
      unfold irStep.irStepInner at hstep
      repeat' (split at hstep)
      all_goals simp_all [curNode]
    · exact StepRes.noConfusion hstep
  · rintro ⟨he, ⟨o, hcur⟩, hinp⟩
    subst he
    unfold curNode at hcur
    unfold irStep
    cases hstack : e'.stack with
    | nil => rw [hstack] at hcur; exact Option.noConfusion hcur
    | cons top rest =>
      obtain ⟨blk, pos⟩ := top
      rw [hstack] at hcur
      simp only at hcur
      cases rest with
      | nil =>
        have hlt : pos < blk.length := by
          by_contra hge
          have hnone : blk[pos]? = none := List.getElem?_eq_none (by omega)
          rw [hnone] at hcur
          exact Option.noConfusion hcur
        show (if pos = blk.length then StepRes.ok (EngState.stopped StopState.halted) e'
          else irStep.irStepInner e' blk pos []) = StepRes.ok (.stopped .needInput) e'
        rw [if_neg (by omega)]
        unfold irStep.irStepInner
        simp only [hcur, hinp]
      | cons f2 rest2 =>
        show irStep.irStepInner e' blk pos (f2 :: rest2) = StepRes.ok (.stopped .needInput) e'
        unfold irStep.irStepInner
        simp only [hcur, hinp]

/-- C10. In both engines a step returns `Stopped(NeedInput)` exactly when
the current instruction (raw) or node (IR) is an input and the pending
input slot is empty, and such a step returns the engine completely
unchanged, so the same instruction is retried next step. -/
theorem needInput_frame :
    (∀ e e' : RawEngine, rawStep e = .ok (.stopped .needInput) e' ↔
      (e' = e ∧ e.program[e.ip]? = some .input ∧ e.input = none)) ∧
    (∀ e e' : IrEngine, irStep e = .ok (.stopped .needInput) e' ↔
      (e' = e ∧ (∃ o, curNode e = some (.input o)) ∧ e.input = none)) :=
  ⟨rawStep_needInput_iff, irStep_needInput_iff⟩

/-- Instantiation of C10 at a concrete suspended engine of each kind. -/
theorem needInput_frame_witness :
    rawStep (RawEngine.new [.input]) = .ok (.stopped .needInput) (RawEngine.new [.input]) ∧
      irStep (IrEngine.new [.input 0]) = .ok (.stopped .needInput) (IrEngine.new [.input 0]) :=
  ⟨(needInput_frame.1 _ _).mpr ⟨rfl, rfl, rfl⟩,
    (needInput_frame.2 _ _).mpr ⟨rfl, ⟨0, rfl⟩, rfl⟩⟩

/-! ## The program `<` and the left-edge error (claim C3)

The runtime error is raised by `mem_curr`/`get_mem` on a memory access at
a negative address, not by the pointer movement itself: `<` alone never
touches memory, so both engines halt normally; `<.` accesses the cell at
-1 and fails in both. -/

/-- C3 counterexample: on the program `<` with empty input both engines
return `Halted`, not `Err(MemNegativeOut)` as the claim states. -/
theorem progShiftLeft_halts_both :
    rawRun 5 [.shiftLeft] [] = .halted [] ∧
      fromRaw 10 [.shiftLeft] = .ok [.shift (-1)] ∧
      irRun 5 [.shift (-1)] [] = .halted [] ∧
      RunRes.halted [] ≠ .errored .memNegativeOut [] := by decide

/-- C3 amended: moving the pointer to -1 is not an error by itself; the
error is raised when a cell at a negative address is accessed. On `<.`
(move left, then read the cell for output) both the raw engine and the IR
engine running the optimized lowering return `Err(MemNegativeOut)`. -/
theorem progShiftLeftOutput_errors_both :
    rawRun 5 [.shiftLeft, .output] [] = .errored .memNegativeOut [] ∧
      fromRaw 10 [.shiftLeft, .output] = .ok [.output (-1)] ∧
      irRun 5 [.output (-1)] [] = .errored .memNegativeOut [] := by decide

/-! ## Lowering is not total (claim C2)

In `from_raw`, when optimization reports a change and the whole block
consists of nodes that neither diverge nor output, the trailing-trim index
`e` underflows (usize) and the block is indexed out of bounds: the program
`++` (whose two adds coalesce into one, leaving only trimmable nodes)
makes `Program::from_raw` panic even though its bracket invariant holds. -/

/-- C2 failing input: `++` is a well-formed (balanced) raw program, its
block optimizes to a single `Add` reporting a change, and `from_raw`'s
trim loop then panics. -/
theorem fromRaw_panics_on_two_adds :
    fromChars "++".toList = .ok [.add, .add] ∧
      blockOpt 20 [.add 1 0, .add 1 0] = some ([.add 2 0], true) ∧
      fromRaw 20 [.add, .add] = .panic := by decide

/-! ## Optimized lowering changes the output sequence (claim C1)

`sort_ops` swaps a commuting `Output`/`Add` pair; with the add at offset
-1 this moves the error of the add before the output, losing an output
byte that the raw engine produces before erroring. -/

/-- C1 failing input: on `.<+>` with empty input the raw engine outputs
the byte 0 and then stops with `MemNegativeOut`, while the IR engine on
the optimized lowering (which reorders the add before the output) stops
with `MemNegativeOut` before producing any output: same terminal status,
different output byte sequences. -/
theorem rawRun_irRun_diverge_on_outputs :
    fromChars ".<+>".toList = .ok [.output, .shiftLeft, .add, .shiftRight] ∧
      rawRun 10 [.output, .shiftLeft, .add, .shiftRight] [] =
        .errored .memNegativeOut [0] ∧
      fromRaw 30 [.output, .shiftLeft, .add, .shiftRight] = .ok [.add 1 (-1), .output 0] ∧
      irRun 10 [.add 1 (-1), .output 0] [] = .errored .memNegativeOut [] := by decide

/-! ## Optimization is idempotent (claim C5) -/


theorem chunkPairs_false : ∀ (ns ns' : List Node), chunkPairs ns = (ns', false) → ns' = ns
  | [], ns', h => by
    simp only [chunkPairs, Prod.mk.injEq] at h
    exact h.1.symm
  | [a], ns', h => by
    simp only [chunkPairs, Prod.mk.injEq] at h
    exact h.1.symm
  | a :: b :: rest, ns', h => by
    simp only [chunkPairs] at h
    cases hop : opts2 a b with
    | some repl =>
      rw [hop] at h
      simp at h
    | none =>
      rw [hop] at h
      simp only [Prod.mk.injEq] at h
      obtain ⟨h1, h2⟩ := h
      have hrec := chunkPairs_false rest (chunkPairs rest).1 (by rw [← h2])
      rw [← h1, hrec]

theorem pass2_false (ns ns' : List Node) (h : pass2 ns = (ns', false)) : ns' = ns := by
  simp only [pass2] at h
  split at h
  · simp only [Prod.mk.injEq] at h
    exact h.1.symm
  · split at h
    · exact chunkPairs_false ns ns' h
    · split at h
      case _ a rest c1 heq =>
        simp only [Prod.mk.injEq] at h
        obtain ⟨h1, h2⟩ := h
        have hc1 : c1 = false := by
          cases c1 <;> simp_all
        have hr2 : (chunkPairs rest).2 = false := by
          cases hcr : (chunkPairs rest).2 <;> simp_all
        have hns : a :: rest = ns := by
          apply chunkPairs_false
          rw [heq, hc1]
        have hrest : (chunkPairs rest).1 = rest := by
          apply chunkPairs_false
          rw [← hr2]
        rw [← h1, hrest, hns]
      · rename_i r1 l2 c2 hnc heq
        obtain rfl : l2 = [] := by
          cases l2 with
          | nil => rfl
          | cons a rest => exact (hnc a rest rfl).elim
        simp only [Prod.mk.injEq] at h
        obtain ⟨h1, h2⟩ := h
        have hl : ([] : List Node) = ns := chunkPairs_false ns [] (by rw [heq, h2])
        rw [← h1, ← hl]

theorem noChange_cluster : ∀ f : Nat,
    (∀ ns ns', blockOpt f ns = some (ns', false) → ns' = ns) ∧
    (∀ ns ns', passOnce f ns = some (ns', false) → ns' = ns) ∧
    (∀ ns ns', pass1 f ns = some (ns', false) → ns' = ns) ∧
    (∀ n l, opt1 f n = some (l, false) → l = [n]) := by
  intro f
  induction f with
  | zero =>
    refine ⟨fun ns ns' h => ?_, fun ns ns' h => ?_, fun ns ns' h => ?_, fun n l h => ?_⟩
    · exact Option.noConfusion h
    · exact Option.noConfusion h
    · cases ns with
      | nil => simp only [pass1, Option.some.injEq, Prod.mk.injEq] at h; exact h.1.symm
      | cons a rest => exact Option.noConfusion h
    · cases n with
      | noop => simp [opt1] at h
      | loop body o => exact Option.noConfusion h
      | shift a => simp only [opt1, Option.some.injEq, Prod.mk.injEq] at h; exact h.1.symm
      | add a o => simp only [opt1, Option.some.injEq, Prod.mk.injEq] at h; exact h.1.symm
      | output o => simp only [opt1, Option.some.injEq, Prod.mk.injEq] at h; exact h.1.symm
      | input o => simp only [opt1, Option.some.injEq, Prod.mk.injEq] at h; exact h.1.symm
  | succ f ih =>
    obtain ⟨ihB, ihP, ih1, ihO⟩ := ih
    refine ⟨fun ns ns' h => ?_, fun ns ns' h => ?_, fun ns ns' h => ?_, fun n l h => ?_⟩
    · simp only [blockOpt] at h
      cases hp : passOnce f ns with
      | none => rw [hp] at h; simp at h
      | some r =>
        obtain ⟨ns1, c⟩ := r
        rw [hp] at h
        cases c with
        | false =>
          simp at h
          rw [← h]
          exact ihP ns ns1 hp
        | true =>
          simp at h
          cases hf : optFix f ns1 with
          | none => rw [hf] at h; simp at h
          | some y => rw [hf] at h; simp at h
    · simp only [passOnce] at h
      cases hp : pass1 f ns with
      | none => rw [hp] at h; simp at h
      | some r =>
        obtain ⟨ns1, c1⟩ := r
        rw [hp] at h
        simp at h
        obtain ⟨h1, hc1, hp2⟩ := h
        subst hc1
        have hns1 : ns1 = ns := ih1 ns ns1 hp
        have hfix : (pass2 ns1).1 = ns1 := pass2_false ns1 _ (by rw [← hp2])
        rw [← h1, hfix, hns1]
    · cases ns with
      | nil =>
        simp only [pass1, Option.some.injEq, Prod.mk.injEq] at h
        exact h.1.symm
      | cons n rest =>
        simp only [pass1] at h
        cases ho : opt1 f n with
        | none => rw [ho] at h; simp at h
        | some r =>
          obtain ⟨hd, c1⟩ := r
          rw [ho] at h
          cases hq : pass1 f rest with
          | none => rw [hq] at h; simp at h
          | some r2 =>
            obtain ⟨tl, c2⟩ := r2
            rw [hq] at h
            simp at h
            obtain ⟨h1, hc1, hc2⟩ := h
            subst hc1; subst hc2
            rw [← h1, ihO n hd ho, ih1 rest tl hq]
            rfl
    · cases n with
      | noop => simp [opt1] at h
      | loop body o =>
        simp only [opt1] at h
        cases hb : blockOpt f body with
        | none => rw [hb] at h; simp at h
        | some r =>
          obtain ⟨b2, c⟩ := r
          rw [hb] at h
          cases c with
          | true => simp at h
          | false =>
            simp at h
            exact h.symm
      | shift a => simp only [opt1, Option.some.injEq, Prod.mk.injEq] at h; exact h.1.symm
      | add a o => simp only [opt1, Option.some.injEq, Prod.mk.injEq] at h; exact h.1.symm
      | output o => simp only [opt1, Option.some.injEq, Prod.mk.injEq] at h; exact h.1.symm
      | input o => simp only [opt1, Option.some.injEq, Prod.mk.injEq] at h; exact h.1.symm

theorem mono_cluster : ∀ f : Nat,
    (∀ g, f ≤ g →
      (∀ ns r, blockOpt f ns = some r → blockOpt g ns = some r) ∧
      (∀ ns r, optFix f ns = some r → optFix g ns = some r) ∧
      (∀ ns r, passOnce f ns = some r → passOnce g ns = some r) ∧
      (∀ ns r, pass1 f ns = some r → pass1 g ns = some r) ∧
      (∀ n r, opt1 f n = some r → opt1 g n = some r)) := by
  intro f
  induction f with
  | zero =>
    intro g _
    refine ⟨fun ns r h => ?_, fun ns r h => ?_, fun ns r h => ?_, fun ns r h => ?_,
      fun n r h => ?_⟩
    · exact Option.noConfusion h
    · exact Option.noConfusion h
    · exact Option.noConfusion h
    · cases ns with
      | nil => cases g <;> simpa [pass1] using h
      | cons a rest => exact Option.noConfusion h
    · cases n with
      | noop => cases g <;> simpa [opt1] using h
      | loop body o => exact Option.noConfusion h
      | shift a => cases g <;> simpa [opt1] using h
      | add a o => cases g <;> simpa [opt1] using h
      | output o => cases g <;> simpa [opt1] using h
      | input o => cases g <;> simpa [opt1] using h
  | succ f ih =>
    intro g hg
    obtain ⟨g, rfl⟩ : ∃ g', g = g' + 1 := ⟨g - 1, by omega⟩
    have hg' : f ≤ g := by omega
    obtain ⟨ihB, ihF, ihP, ih1, ihO⟩ := ih g hg'
    refine ⟨fun ns r h => ?_, fun ns r h => ?_, fun ns r h => ?_, fun ns r h => ?_,
      fun n r h => ?_⟩
    · simp only [blockOpt] at h ⊢
      cases hp : passOnce f ns with
      | none => rw [hp] at h; simp at h
      | some p =>
        obtain ⟨ns1, c⟩ := p
        rw [hp] at h
        rw [ihP ns (ns1, c) hp]
        cases c with
        | false => simpa using h
        | true =>
          simp at h ⊢
          cases hf : optFix f ns1 with
          | none => rw [hf] at h; simp at h
          | some y =>
            rw [hf] at h
            rw [ihF ns1 y hf]
            simpa using h
    · simp only [optFix] at h ⊢
      cases hp : passOnce f ns with
      | none => rw [hp] at h; simp at h
      | some p =>
        obtain ⟨ns1, c⟩ := p
        rw [hp] at h
        rw [ihP ns (ns1, c) hp]
        cases c with
        | false => simpa using h
        | true =>
          simp at h ⊢
          exact ihF ns1 r h
    · simp only [passOnce] at h ⊢
      cases hp : pass1 f ns with
      | none => rw [hp] at h; simp at h
      | some p =>
        obtain ⟨ns1, c1⟩ := p
        rw [hp] at h
        rw [ih1 ns (ns1, c1) hp]
        simpa using h
    · cases ns with
      | nil => simpa [pass1] using h
      | cons n rest =>
        simp only [pass1] at h ⊢
        cases ho : opt1 f n with
        | none => rw [ho] at h; simp at h
        | some p =>
          obtain ⟨hd, c1⟩ := p
          rw [ho] at h
          rw [ihO n (hd, c1) ho]
          cases hq : pass1 f rest with
          | none => rw [hq] at h; simp at h
          | some p2 =>
            obtain ⟨tl, c2⟩ := p2
            rw [hq] at h
            rw [ih1 rest (tl, c2) hq]
            simpa using h
    · cases n with
      | noop => simpa [opt1] using h
      | shift a => simpa [opt1] using h
      | add a o => simpa [opt1] using h
      | output o => simpa [opt1] using h
      | input o => simpa [opt1] using h
      | loop body o =>
        simp only [opt1] at h ⊢
        cases hb : blockOpt f body with
        | none => rw [hb] at h; simp at h
        | some p =>
          obtain ⟨b2, c⟩ := p
          rw [hb] at h
          rw [ihB body (b2, c) hb]
          simpa using h

theorem optFix_last_pass : ∀ f ns Y, optFix f ns = some Y →
    ∃ fp, fp < f ∧ passOnce fp Y = some (Y, false) := by
  intro f
  induction f with
  | zero => intro ns Y h; exact Option.noConfusion h
  | succ f ih =>
    intro ns Y h
    simp only [optFix] at h
    cases hp : passOnce f ns with
    | none => rw [hp] at h; simp at h
    | some p =>
      obtain ⟨ns1, c⟩ := p
      rw [hp] at h
      cases c with
      | true =>
        simp at h
        obtain ⟨fp, hlt, hfp⟩ := ih ns1 Y h
        exact ⟨fp, by omega, hfp⟩
      | false =>
        simp at h
        subst h
        have : ns1 = ns := (noChange_cluster f).2.1 ns ns1 hp
        exact ⟨f, by omega, by rw [this] at hp ⊢; exact hp⟩

theorem blockOpt_last_pass : ∀ f X Y c, blockOpt f X = some (Y, c) →
    ∃ fp, fp < f ∧ passOnce fp Y = some (Y, false) := by
  intro f X Y c h
  cases f with
  | zero => exact Option.noConfusion h
  | succ f =>
    simp only [blockOpt] at h
    cases hp : passOnce f X with
    | none => rw [hp] at h; simp at h
    | some p =>
      obtain ⟨ns1, c1⟩ := p
      rw [hp] at h
      cases c1 with
      | true =>
        simp at h
        rcases Option.eq_none_or_eq_some (optFix f ns1) with hf | ⟨y2, hf⟩
        · rw [hf] at h; simp at h
        · rw [hf] at h
          simp at h
          obtain ⟨hY, _⟩ := h
          obtain ⟨fp, hlt, hfp⟩ := optFix_last_pass f ns1 y2 hf
          subst hY
          exact ⟨fp, by omega, hfp⟩
      | false =>
        simp at h
        obtain ⟨h1, _⟩ := h
        have hX : ns1 = X := (noChange_cluster f).2.1 X ns1 hp
        subst h1
        exact ⟨f, by omega, by rw [hX] at hp ⊢; exact hp⟩

/-- C5. Block optimization is idempotent: whenever `Block::optimize`
terminates (fuel `f` suffices) turning `X` into `Y`, running it again on
`Y` leaves `Y` unchanged and reports that no change occurred. -/
theorem blockOpt_idempotent (f : Nat) (X Y : List Node) (c : Bool)
    (h : blockOpt f X = some (Y, c)) : blockOpt f Y = some (Y, false) := by
  obtain ⟨fp, hlt, hfp⟩ := blockOpt_last_pass f X Y c h
  have hstep : blockOpt (fp + 1) Y = some (Y, false) := by
    simp only [blockOpt]
    rw [hfp]
    simp
  exact (mono_cluster (fp + 1) f (by omega)).1 Y (Y, false) hstep

/-- Instantiation of C5: two adds coalesce into one with a change
reported; optimizing the result changes nothing. -/
theorem blockOpt_idempotent_witness :
    blockOpt 9 [Node.add 1 0, Node.add 1 0] = some ([Node.add 2 0], true) ∧
      blockOpt 9 [Node.add 2 0] = some ([Node.add 2 0], false) :=
  ⟨by decide, blockOpt_idempotent 9 [Node.add 1 0, Node.add 1 0] [Node.add 2 0] true (by decide)⟩


theorem Memory.get_set (m : Memory) (i v j : Nat) :
    (m.set i v).get j = if j = i then v else m.get j := by
  unfold Memory.set Memory.getMutSet Memory.get
  split
  case isTrue hlen =>
    simp only [List.getD_eq_getElem?_getD, List.getElem?_set]
    by_cases hj : j = i
    · subst hj
      simp [hlen]
    · rw [if_neg (show ¬ i = j by omega), if_neg hj]
  case isFalse hlen =>
    split
    case isTrue hv =>
      simp only [List.getD_eq_getElem?_getD, List.getElem?_set, List.getElem?_append,
        List.getElem?_replicate, List.length_append, List.length_replicate]
      by_cases hj : j = i
      · subst hj
        rw [if_pos rfl, if_pos (show j < m.mem.length + (j + 1 - m.mem.length) by omega)]
        simp
      · rw [if_neg (show ¬ i = j by omega), if_neg hj]
        by_cases hjl : j < m.mem.length
        · rw [if_pos hjl]
        · rw [if_neg hjl]
          have h1 : m.mem[j]? = none := List.getElem?_eq_none (by omega)
          rw [h1]
          split
          · simp
          · simp
    case isFalse hv =>
      have hv0 : v = 0 := by omega
      by_cases hj : j = i
      · subst hj
        rw [if_pos rfl, List.getD_eq_getElem?_getD, List.getElem?_eq_none (by omega)]
        simp [hv0]
      · rw [if_neg hj]

theorem Memory.get_set_set_comm (m : Memory) (i1 v1 i2 v2 : Nat) (hne : i1 ≠ i2) (j : Nat) :
    ((m.set i1 v1).set i2 v2).get j = ((m.set i2 v2).set i1 v1).get j := by
  by_cases h2 : j = i2
  · by_cases h1 : j = i1
    · exact absurd (h1.symm.trans h2) hne
    · simp [Memory.get_set, h1, h2, hne, Ne.symm hne]
  · by_cases h1 : j = i1
    · simp [Memory.get_set, h1, h2, hne, Ne.symm hne]
    · simp [Memory.get_set, h1, h2]

theorem runList_single (I : Nat → Nat) (f : Nat) (b : Node) (s : St) :
    runList I f [b] s = runNode I f b s := by
  cases hr : runNode I f b s with
  | ok s2 t => simp [runList, hr, Res.withTr]
  | err t => simp [runList, hr]
  | timeout t => simp [runList, hr]

theorem runList_pair (I : Nat → Nat) (f : Nat) (a b : Node) (s : St) :
    runList I f [a, b] s =
      match runNode I f a s with
      | .ok s2 t1 => (runNode I f b s2).withTr t1
      | other => other := by
  cases hr : runNode I f a s with
  | ok s2 t => simp [runList, hr, runList_single]
  | err t => simp [runList, hr]
  | timeout t => simp [runList, hr]

/-- C7 amended. The commute relation is sound for successful executions:
whenever `Node::commute` returns true and running the pair in one order
succeeds, running it in the swapped order succeeds with the identical
I/O event trace, the same memory pointer and input position, and a tape
with the same content at every cell. -/
theorem commute_sound_on_success (n1 n2 : Node) (I : Nat → Nat) (f : Nat) (s s' : St)
    (tr : List Ev) (hc : n1.commute n2 = true)
    (h : runList I f [n1, n2] s = .ok s' tr) :
    ∃ s'', runList I f [n2, n1] s = .ok s'' tr ∧ s''.mp = s'.mp ∧ s''.inp = s'.inp ∧
      ∀ i, s''.mem.get i = s'.mem.get i := by
  rw [runList_pair] at h ⊢
  by_cases hn1 : n1 = Node.noop
  · subst hn1
    simp only [runNode] at h
    cases hr : runNode I f n2 s with
    | ok s3 t =>
      rw [hr] at h
      simp only [Res.withTr, List.nil_append, Res.ok.injEq] at h
      obtain ⟨hs, ht⟩ := h
      exact ⟨s3, by simp [runNode, Res.withTr, ht], by rw [hs], by rw [hs], fun i => by rw [hs]⟩
    | err t => rw [hr] at h; simp [Res.withTr] at h
    | timeout t => rw [hr] at h; simp [Res.withTr] at h
  by_cases hn2 : n2 = Node.noop
  · subst hn2
    simp only [runNode] at h ⊢
    cases hr : runNode I f n1 s with
    | ok s3 t =>
      rw [hr] at h
      simp only [Res.withTr, List.append_nil] at h
      simp only [Res.ok.injEq] at h
      obtain ⟨hs, ht⟩ := h
      refine ⟨s3, ?_, by rw [hs], by rw [hs], fun i => by rw [hs]⟩
      simp [Res.withTr, ht]
    | err t => rw [hr] at h; simp at h
    | timeout t => rw [hr] at h; simp at h
  cases n1 with
  | noop => exact absurd rfl hn1
  | loop b1 o1 =>
    cases n2 <;> simp_all [Node.commute]
  | shift a1 =>
    cases n2 with
    | noop => exact absurd rfl hn2
    | shift a2 =>
      simp only [runNode, Res.withTr, List.nil_append, Res.ok.injEq] at h
      obtain ⟨hs, ht⟩ := h
      refine ⟨{ s with mp := s.mp + a2 + a1 }, ?_, ?_, ?_, ?_⟩
      · simp [runNode, Res.withTr, ← ht]
      · rw [← hs]; simp; omega
      · rw [← hs]
      · intro i; rw [← hs]
    | add a2 o2 => simp [Node.commute] at hc
    | output o2 => simp [Node.commute] at hc
    | input o2 => simp [Node.commute] at hc
    | loop b2 o2 => simp [Node.commute] at hc
  | add a1 o1 =>
    cases n2 with
    | noop => exact absurd rfl hn2
    | shift a2 => simp [Node.commute] at hc
    | loop b2 o2 => simp [Node.commute] at hc
    | add a2 o2 =>
      replace hc : o1 ≠ o2 := by simpa [Node.commute] using hc
      by_cases hc1 : s.mp + o1 < 0
      · simp [runNode, hc1] at h
      · by_cases hc2 : s.mp + o2 < 0
        · simp [runNode, hc1, hc2, Res.withTr] at h
        · have hne : (s.mp + o2).toNat ≠ (s.mp + o1).toNat := by omega
          have hne2 : (s.mp + o1).toNat ≠ (s.mp + o2).toNat := by omega
          simp only [runNode, hc1, hc2, if_false, reduceIte, Res.withTr, List.nil_append,
            Memory.get_set, hne, hne2, if_neg hne, if_neg hne2, Res.ok.injEq] at h ⊢
          obtain ⟨hs, ht⟩ := h
          refine ⟨_, ⟨rfl, ht⟩, by rw [← hs], by rw [← hs], fun i => ?_⟩
          rw [← hs]
          simp only
          exact Memory.get_set_set_comm s.mem _ _ _ _ hne i
    | output o2 =>
      replace hc : o1 ≠ o2 := by simpa [Node.commute] using hc
      by_cases hc1 : s.mp + o1 < 0
      · simp [runNode, hc1] at h
      · by_cases hc2 : s.mp + o2 < 0
        · simp [runNode, hc1, hc2, Res.withTr] at h
        · have hne : (s.mp + o2).toNat ≠ (s.mp + o1).toNat := by omega
          simp only [runNode, hc1, hc2, if_false, reduceIte, Res.withTr, List.nil_append,
            List.append_nil, Memory.get_set, if_neg hne, Res.ok.injEq] at h ⊢
          obtain ⟨hs, ht⟩ := h
          exact ⟨_, ⟨rfl, ht⟩, by rw [← hs], by rw [← hs], fun i => by rw [← hs]⟩
    | input o2 =>
      replace hc : o1 ≠ o2 := by simpa [Node.commute] using hc
      by_cases hc1 : s.mp + o1 < 0
      · simp [runNode, hc1] at h
      · by_cases hc2 : s.mp + o2 < 0
        · simp [runNode, hc1, hc2, Res.withTr] at h
        · have hne : (s.mp + o2).toNat ≠ (s.mp + o1).toNat := by omega
          have hne2 : (s.mp + o1).toNat ≠ (s.mp + o2).toNat := by omega
          simp only [runNode, hc1, hc2, if_false, reduceIte, Res.withTr, List.nil_append,
            List.append_nil, Memory.get_set, if_neg hne, if_neg hne2, Res.ok.injEq] at h ⊢
          obtain ⟨hs, ht⟩ := h
          refine ⟨_, ⟨rfl, ht⟩, by rw [← hs], by rw [← hs], fun i => ?_⟩
          rw [← hs]
          simp only
          exact Memory.get_set_set_comm s.mem _ _ _ _ hne i
  | output o1 =>
    cases n2 with
    | noop => exact absurd rfl hn2
    | shift a2 => simp [Node.commute] at hc
    | loop b2 o2 => simp [Node.commute] at hc
    | output o2 => simp [Node.commute] at hc
    | input o2 => simp [Node.commute] at hc
    | add a2 o2 =>
      replace hc : o2 ≠ o1 := by simpa [Node.commute] using hc
      by_cases hc1 : s.mp + o1 < 0
      · simp [runNode, hc1] at h
      · by_cases hc2 : s.mp + o2 < 0
        · simp [runNode, hc1, hc2, Res.withTr] at h
        · have hne : (s.mp + o1).toNat ≠ (s.mp + o2).toNat := by omega
          simp only [runNode, hc1, hc2, if_false, reduceIte, Res.withTr, List.nil_append,
            List.append_nil, Memory.get_set, if_neg hne, Res.ok.injEq] at h ⊢
          obtain ⟨hs, ht⟩ := h
          exact ⟨_, ⟨rfl, ht⟩, by rw [← hs], by rw [← hs], fun i => by rw [← hs]⟩
  | input o1 =>
    cases n2 with
    | noop => exact absurd rfl hn2
    | shift a2 => simp [Node.commute] at hc
    | loop b2 o2 => simp [Node.commute] at hc
    | output o2 => simp [Node.commute] at hc
    | input o2 => simp [Node.commute] at hc
    | add a2 o2 =>
      replace hc : o2 ≠ o1 := by simpa [Node.commute] using hc
      by_cases hc1 : s.mp + o1 < 0
      · simp [runNode, hc1] at h
      · by_cases hc2 : s.mp + o2 < 0
        · simp [runNode, hc1, hc2, Res.withTr] at h
        · have hne : (s.mp + o1).toNat ≠ (s.mp + o2).toNat := by omega
          have hne2 : (s.mp + o2).toNat ≠ (s.mp + o1).toNat := by omega
          simp only [runNode, hc1, hc2, if_false, reduceIte, Res.withTr, List.nil_append,
            List.append_nil, Memory.get_set, if_neg hne, if_neg hne2, Res.ok.injEq] at h ⊢
          obtain ⟨hs, ht⟩ := h
          refine ⟨_, ⟨rfl, ht⟩, by rw [← hs], by rw [← hs], fun i => ?_⟩
          rw [← hs]
          simp only
          exact Memory.get_set_set_comm s.mem _ _ _ _ hne2 i

/-- C7 counterexample: `Add{1,-1}` and `Output{0}` commute according to
`Node::commute` (offsets differ), yet from the initial state executing
add-then-output errors with no output while output-then-add emits the byte
0 to the host before erroring: the observable I/O traces differ. -/
theorem commute_not_trace_sound :
    Node.commute (.add 1 (-1)) (.output 0) = true ∧
      runList (fun _ => 0) 1 [.add 1 (-1), .output 0] ⟨Memory.new, 0, 0⟩ = .err [] ∧
      runList (fun _ => 0) 1 [.output 0, .add 1 (-1)] ⟨Memory.new, 0, 0⟩ = .err [.out 0] ∧
      Res.err ([] : List Ev) ≠ .err [.out 0] := by
  refine ⟨by decide, ?_, ?_, by decide⟩
  · rw [runList_pair]
    norm_num [runNode]
  · rw [runList_pair]
    norm_num [runNode, Memory.get, Memory.new, Res.withTr]

/-- Instantiation of C7 at a commuting pair whose execution succeeds. -/
theorem commute_sound_on_success_witness :
    ∃ s'', runList (fun _ => 0) 1 [Node.output 1, Node.add 1 0] ⟨Memory.new, 0, 0⟩ =
        .ok s'' [Ev.out 0] ∧ s''.mp = (0 : Int) ∧ s''.inp = 0 ∧
        ∀ i, s''.mem.get i = (⟨⟨[1]⟩, 0, 0⟩ : St).mem.get i :=
  commute_sound_on_success (.add 1 0) (.output 1) (fun _ => 0) 1 ⟨Memory.new, 0, 0⟩
    ⟨⟨[1]⟩, 0, 0⟩ [.out 0] (by decide)
    (by
      rw [runList_pair]
      norm_num [runNode, Memory.get, Memory.new, Memory.set, Memory.getMutSet, wrap,
        Res.withTr])
/-! ## The bracket scans of the raw engine are safe (claim C9) -/

theorem depth_append (l1 l2 : List Instruction) : depth (l1 ++ l2) = depth l1 + depth l2 := by
  simp [depth, opens, closes, List.count_append]
  push_cast
  ring

theorem Balanced.parCount_eq (l : List Instruction) (h : Balanced l) : parCount l 0 = some 0 := by
  unfold Balanced fromInstrs at h
  split at h
  · exact Except.noConfusion h
  · rename_i n heq
    split at h
    · exact Except.noConfusion h
    · rename_i hn
      rw [heq]
      have hn0 : n = 0 := by omega
      rw [hn0]

theorem Balanced.depth_eq_zero (l : List Instruction) (h : Balanced l) : depth l = 0 := by
  have := parCount_some_eq l 0 0 (h.parCount_eq l)
  omega

theorem Balanced.depth_take_nonneg (l : List Instruction) (h : Balanced l) (k : Nat) :
    0 ≤ depth (l.take k) := by
  by_contra hneg
  have : parCount l 0 = none := by
    apply (parCount_none_iff l 0).mpr
    by_cases hk : k ≤ l.length
    · exact ⟨k, hk, by omega⟩
    · refine ⟨l.length, le_refl _, ?_⟩
      rw [List.take_length]
      rw [List.take_of_length_le (by omega)] at hneg
      omega
  rw [h.parCount_eq l] at this
  exact Option.noConfusion this

theorem balanced_of_depth (l : List Instruction)
    (hpre : ∀ k, k ≤ l.length → 0 ≤ depth (l.take k)) (hz : depth l = 0) : Balanced l := by
  unfold Balanced fromInstrs
  cases hpar : parCount l 0 with
  | none =>
    obtain ⟨k, hk, hlt⟩ := (parCount_none_iff l 0).mp hpar
    have := hpre k hk
    omega
  | some n =>
    have hn := parCount_some_eq l 0 n hpar
    have : n = 0 := by omega
    rw [this]
    rfl

theorem scanFAux_spec : ∀ (l : List Instruction) (c : Nat), 1 ≤ c →
    (c : Int) + depth l ≤ 0 →
    ∃ k, scanFAux l c = some k ∧ k < l.length ∧ l[k]? = some .closeLoop ∧
      depth (l.take (k + 1)) = -(c : Int) ∧
      ∀ j, j ≤ k → 0 < (c : Int) + depth (l.take j) := by
  intro l
  induction l with
  | nil =>
    intro c hc hle
    rw [depth_nil] at hle
    omega
  | cons i rest ih =>
    intro c hc hle
    rw [depth_cons] at hle
    cases i with
    | closeLoop =>
      cases hc1 : c with
      | zero => omega
      | succ c0 =>
        cases c0 with
        | zero =>
          refine ⟨0, ?_, by simp, by simp, ?_, ?_⟩
          · simp [scanFAux]
          · rw [List.take_succ_cons, List.take_zero, depth_cons, depth_nil]
            norm_num
          · intro j hj
            interval_cases j
            rw [List.take_zero, depth_nil]
            norm_num
        | succ c1 =>
          have hrec := ih (c1 + 1) (by omega) (by push_cast at hle ⊢; omega)
          obtain ⟨k, hscan, hk, hcl, hdep, hpre⟩ := hrec
          refine ⟨k + 1, ?_, by simpa using hk, by simpa using hcl, ?_, ?_⟩
          · simp only [scanFAux]
            rw [show c1 + 1 + 1 - 1 = c1 + 1 from rfl]
            rw [if_neg (by omega), hscan]
            rfl
          · rw [List.take_succ_cons, depth_cons]
            push_cast
            push_cast at hdep
            omega
          · intro j hj
            cases j with
            | zero =>
              rw [List.take_zero, depth_nil]
              push_cast
              omega
            | succ j0 =>
              rw [List.take_succ_cons, depth_cons]
              have := hpre j0 (by omega)
              push_cast
              push_cast at this
              omega
    | openLoop =>
      have hrec := ih (c + 1) (by omega) (by push_cast at hle ⊢; omega)
      obtain ⟨k, hscan, hk, hcl, hdep, hpre⟩ := hrec
      refine ⟨k + 1, ?_, by simpa using hk, by simpa using hcl, ?_, ?_⟩
      · simp only [scanFAux]
        rw [if_neg (by omega), hscan]
        rfl
      · rw [List.take_succ_cons, depth_cons]
        push_cast
        push_cast at hdep
        omega
      · intro j hj
        cases j with
        | zero =>
          rw [List.take_zero, depth_nil]
          push_cast
          omega
        | succ j0 =>
          rw [List.take_succ_cons, depth_cons]
          have := hpre j0 (by omega)
          push_cast
          push_cast at this
          omega
    | shiftRight | shiftLeft | add | sub | output | input =>
      have hrec := ih c (by omega) (by push_cast at hle ⊢; omega)
      obtain ⟨k, hscan, hk, hcl, hdep, hpre⟩ := hrec
      refine ⟨k + 1, ?_, by simpa using hk, by simpa using hcl, ?_, ?_⟩
      · simp only [scanFAux]
        rw [if_neg (by omega), hscan]
        rfl
      · rw [List.take_succ_cons, depth_cons]
        push_cast
        push_cast at hdep
        omega
      · intro j hj
        cases j with
        | zero =>
          rw [List.take_zero, depth_nil]
          push_cast
          omega
        | succ j0 =>
          rw [List.take_succ_cons, depth_cons]
          have := hpre j0 (by omega)
          push_cast
          push_cast at this
          omega

theorem scanF_spec (prog : RawProgram) (ip : Nat) (hbal : Balanced prog)
    (hcur : prog[ip]? = some .openLoop) :
    ∃ j, scanF prog ip = some j ∧ ip < j ∧ j < prog.length ∧
      prog[j]? = some .closeLoop ∧
      Balanced ((prog.drop (ip + 1)).take (j - ip - 1)) := by
  have hiplen : ip < prog.length := by
    by_contra hge
    rw [List.getElem?_eq_none (by omega)] at hcur
    exact Option.noConfusion hcur
  set l := prog.drop (ip + 1) with hl
  have hsplitp : prog.take (ip + 1) ++ l = prog := by
    rw [hl]
    exact List.take_append_drop _ _
  have htotal : depth prog = 0 := Balanced.depth_eq_zero prog hbal
  have htake1 : prog.take (ip + 1) = prog.take ip ++ [Instruction.openLoop] := by
    rw [List.take_succ, hcur]
    rfl
  have hone : depth [Instruction.openLoop] = 1 := by decide
  have hdtake : depth (prog.take (ip + 1)) = depth (prog.take ip) + 1 := by
    rw [htake1, depth_append, hone]
  have hnn : 0 ≤ depth (prog.take ip) := Balanced.depth_take_nonneg prog hbal ip
  have hld : (1 : Int) + depth l ≤ 0 := by
    have hda := depth_append (prog.take (ip + 1)) l
    rw [hsplitp] at hda
    omega
  obtain ⟨k, hscan, hk, hcl, hdep, hpre⟩ := scanFAux_spec l 1 (le_refl 1) hld
  have hllen : l.length = prog.length - (ip + 1) := by
    rw [hl, List.length_drop]
  refine ⟨ip + 1 + k, ?_, by omega, by omega, ?_, ?_⟩
  · rw [scanF, ← hl, hscan]
    rfl
  · rw [show prog[ip + 1 + k]? = l[k]? from by rw [hl, List.getElem?_drop]]
    exact hcl
  · have hidx : ip + 1 + k - ip - 1 = k := by omega
    rw [hidx]
    apply balanced_of_depth
    · intro m hm
      have hmk : m ≤ k := by
        have hlen2 : (l.take k).length = k := by
          rw [List.length_take]
          omega
        omega
      rw [List.take_take, min_eq_left hmk]
      have := hpre m (by omega)
      omega
    · have h1 : l.take (k + 1) = l.take k ++ [Instruction.closeLoop] := by
        rw [List.take_succ, hcl]
        rfl
      rw [h1, depth_append] at hdep
      have hmone : depth [Instruction.closeLoop] = -1 := by decide
      omega

theorem scanBAux_eq_scanFAux (l : List Instruction) :
    ∀ c, scanBAux l c = scanFAux (l.map flipBr) c := by
  induction l with
  | nil => intro c; rfl
  | cons i rest ih =>
    intro c
    cases i <;> simp [scanBAux, scanFAux, flipBr, ih]

theorem depth_map_flipBr (l : List Instruction) : depth (l.map flipBr) = -depth l := by
  induction l with
  | nil => simp [depth_nil]
  | cons i rest ih =>
    rw [List.map_cons, depth_cons, depth_cons, ih]
    cases i <;> simp [flipBr] <;> omega

theorem depth_reverse (l : List Instruction) : depth l.reverse = depth l := by
  simp [depth, opens, closes, List.count_reverse]

theorem depth_drop (l : List Instruction) (m : Nat) :
    depth (l.drop m) = depth l - depth (l.take m) := by
  have h := depth_append (l.take m) (l.drop m)
  rw [List.take_append_drop] at h
  omega

theorem flipBr_eq_close {i : Instruction} (h : flipBr i = .closeLoop) : i = .openLoop := by
  cases i <;> simp [flipBr] at h ⊢

theorem scanB_spec (prog : RawProgram) (ip : Nat) (hbal : Balanced prog)
    (hcur : prog[ip]? = some .closeLoop) :
    ∃ j, scanB prog ip = some j ∧ j < ip ∧ prog[j]? = some .openLoop ∧
      Balanced ((prog.drop (j + 1)).take (ip - j - 1)) := by
  have hiplen : ip < prog.length := by
    by_contra hge
    rw [List.getElem?_eq_none (by omega)] at hcur
    exact Option.noConfusion hcur
  set t := prog.take ip with ht
  have htlen : t.length = ip := by
    rw [ht, List.length_take]
    omega
  have htake1 : prog.take (ip + 1) = t ++ [Instruction.closeLoop] := by
    rw [List.take_succ, hcur, ht]
    rfl
  have hmone : depth [Instruction.closeLoop] = -1 := by decide
  have hnn : 0 ≤ depth (prog.take (ip + 1)) := Balanced.depth_take_nonneg prog hbal (ip + 1)
  have hdt : 1 ≤ depth t := by
    rw [htake1, depth_append, hmone] at hnn
    omega
  have hld : (1 : Int) + depth (t.reverse.map flipBr) ≤ 0 := by
    rw [depth_map_flipBr, depth_reverse]
    omega
  obtain ⟨k, hscan, hk, hcl, hdep, hpre⟩ :=
    scanFAux_spec (t.reverse.map flipBr) 1 (le_refl 1) hld
  have hklen : k < ip := by
    rw [List.length_map, List.length_reverse, htlen] at hk
    exact hk
  have htake_rev : ∀ m, m ≤ ip →
      (t.reverse.map flipBr).take m = ((t.drop (ip - m)).reverse).map flipBr := by
    intro m hm
    rw [← List.map_take, List.take_reverse, htlen]
  refine ⟨ip - 1 - k, ?_, by omega, ?_, ?_⟩
  · rw [scanB, ← ht, scanBAux_eq_scanFAux, hscan]
    rfl
  · -- prog[ip - 1 - k]? = some openLoop
    rw [List.getElem?_map] at hcl
    have hrev : t.reverse[k]? = some Instruction.openLoop := by
      cases hr : t.reverse[k]? with
      | none => rw [hr] at hcl; exact Option.noConfusion hcl
      | some i =>
        rw [hr] at hcl
        simp at hcl
        rw [flipBr_eq_close hcl]
    rw [List.getElem?_reverse (by rw [htlen]; exact hklen), htlen] at hrev
    have hjt : t[ip - 1 - k]? = prog[ip - 1 - k]? := by
      rw [ht, List.getElem?_take, if_pos (by omega)]
    rw [← hjt]
    exact hrev
  · -- Balanced inner
    set j := ip - 1 - k with hj
    have hinner : (prog.drop (j + 1)).take (ip - j - 1) = t.drop (j + 1) := by
      rw [ht, List.drop_take, show ip - (j + 1) = ip - j - 1 by omega]
    rw [hinner]
    have hdropj : depth (t.drop j) = 1 := by
      have heq : (t.reverse.map flipBr).take (k + 1) = ((t.drop j).reverse).map flipBr := by
        rw [htake_rev (k + 1) (by omega), show ip - (k + 1) = j by omega]
      rw [heq, depth_map_flipBr, depth_reverse] at hdep
      omega
    have hjlt : j < t.length := by rw [htlen]; omega
    have hcons : t.drop j = Instruction.openLoop :: t.drop (j + 1) := by
      rw [List.drop_eq_getElem_cons hjlt]
      congr 1
      have hrev : t.reverse[k]? = some Instruction.openLoop := by
        rw [List.getElem?_map] at hcl
        cases hr : t.reverse[k]? with
        | none => rw [hr] at hcl; exact Option.noConfusion hcl
        | some i =>
          rw [hr] at hcl
          simp at hcl
          rw [flipBr_eq_close hcl]
      rw [List.getElem?_reverse (by rw [htlen]; exact hklen), htlen] at hrev
      have : t[j]? = some Instruction.openLoop := by rw [hj]; exact hrev
      rw [List.getElem?_eq_getElem hjlt] at this
      simpa using this
    have hdinner : depth (t.drop (j + 1)) = 0 := by
      rw [hcons, depth_cons] at hdropj
      simp at hdropj
      omega
    apply balanced_of_depth
    · intro m hm
      have hlen2 : (t.drop (j + 1)).length = k := by
        rw [List.length_drop, htlen]
        omega
      have hmk : m ≤ k := by omega
      have hsuffix : depth ((t.drop (j + 1)).drop m) ≤ 0 := by
        have hrw : (t.drop (j + 1)).drop m = t.drop (j + 1 + m) :=
          List.drop_drop m (j + 1) t
        have hstep := hpre (k - m) (by omega)
        rw [htake_rev (k - m) (by omega), depth_map_flipBr, depth_reverse] at hstep
        have hidx2 : ip - (k - m) = j + 1 + m := by omega
        rw [hidx2] at hstep
        rw [hrw]
        omega
      have hsplit := depth_drop (t.drop (j + 1)) m
      omega
    · exact hdinner

/-- C9. On a bracket-balanced program (the only kind constructible), the
forward scan from any `[` and the backward scan from any `]` terminate at
the matching bracket inside the program — the landing opcode is the
matching bracket kind and the enclosed segment is itself balanced — and
consequently a raw engine step never performs an out-of-bounds program
index (never panics). -/
theorem rawScan_matching_safe :
    (∀ (prog : RawProgram) (ip : Nat), Balanced prog → prog[ip]? = some .openLoop →
      ∃ j, scanF prog ip = some j ∧ ip < j ∧ j < prog.length ∧
        prog[j]? = some .closeLoop ∧
        Balanced ((prog.drop (ip + 1)).take (j - ip - 1))) ∧
    (∀ (prog : RawProgram) (ip : Nat), Balanced prog → prog[ip]? = some .closeLoop →
      ∃ j, scanB prog ip = some j ∧ j < ip ∧ prog[j]? = some .openLoop ∧
        Balanced ((prog.drop (j + 1)).take (ip - j - 1))) ∧
    (∀ e : RawEngine, Balanced e.program → e.ip ≤ e.program.length →
      rawStep e ≠ .panic) := by
  refine ⟨scanF_spec, scanB_spec, ?_⟩
  intro e hbal hiple hcon
  unfold rawStep at hcon
  split at hcon
  · exact StepRes.noConfusion hcon
  · rename_i hne
    have hlt : e.ip < e.program.length := by omega
    split at hcon
    · rename_i heq
      rw [List.getElem?_eq_getElem hlt] at heq
      exact Option.noConfusion heq
    · rename_i i heq
      cases i <;> (repeat' split at hcon) <;> try simp_all
      · obtain ⟨j, hscan, _⟩ := scanF_spec e.program e.ip hbal
          (by rw [List.getElem?_eq_getElem hlt, heq])
        simp_all
      · obtain ⟨j, hscan, _⟩ := scanB_spec e.program e.ip hbal
          (by rw [List.getElem?_eq_getElem hlt, heq])
        simp_all

/-- Instantiation of C9 on the program `[]`: the forward scan from
position 0 and the backward scan from position 1 both succeed, and a step
of a fresh engine does not panic. -/
theorem rawScan_matching_safe_witness :
    (∃ j, scanF [Instruction.openLoop, Instruction.closeLoop] 0 = some j ∧ 0 < j ∧
      j < ([Instruction.openLoop, Instruction.closeLoop] : List Instruction).length ∧
      ([Instruction.openLoop, Instruction.closeLoop] : List Instruction)[j]? =
        some .closeLoop ∧
      Balanced ((([Instruction.openLoop, Instruction.closeLoop] :
        List Instruction).drop (0 + 1)).take (j - 0 - 1))) ∧
    (∃ j, scanB [Instruction.openLoop, Instruction.closeLoop] 1 = some j ∧ j < 1 ∧
      ([Instruction.openLoop, Instruction.closeLoop] : List Instruction)[j]? =
        some .openLoop ∧
      Balanced ((([Instruction.openLoop, Instruction.closeLoop] :
        List Instruction).drop (j + 1)).take (1 - j - 1))) ∧
    rawStep (RawEngine.new [.openLoop, .closeLoop]) ≠ .panic :=
  ⟨rawScan_matching_safe.1 [.openLoop, .closeLoop] 0 (by decide) (by decide),
    rawScan_matching_safe.2.1 [.openLoop, .closeLoop] 1 (by decide) (by decide),
    rawScan_matching_safe.2.2 (RawEngine.new [.openLoop, .closeLoop]) (by decide) (by decide)⟩
end Bf
